import Mathlib

/-!
Verification of the BDF-to-assembly font converter
(`bdf_to_lisa_console_screen_x68.py`).

The development shallowly embeds the converter's record-driven parsing
state machine and its per-row byte packer.  Input lines are modelled as
`List Char` (one list per physical line, without the trailing newline),
the output stream as a list of `OutLine` values (one per write of the
source, with the out-of-scope textual formatting abstracted into the
constructor's fields), and every fatal Python exception as a value of
the `Err` type.  Arbitrary-precision Python integers are modelled as
`Int` and `Nat`.
-/

abbrev Line := List Char

/-- Whitespace characters stripped by Python's `str.rstrip` and by the
whitespace trimming of the built-in `int`. -/
def isPyWs (c : Char) : Bool :=
  c = ' ' || c = '\t' || c = '\n' || c = '\r' || c = '\x0b' || c = '\x0c'

/-- Model of Python's `str.rstrip()` (trailing whitespace removed). -/
def rstripL (l : Line) : Line :=
  (l.reverse.dropWhile isPyWs).reverse

/-- Whitespace trimming on both ends, as done by Python's `int(s, base)`. -/
def trimWs (l : Line) : Line :=
  ((l.dropWhile isPyWs).reverse.dropWhile isPyWs).reverse

/-- Value of a single hexadecimal digit character, if it is one. -/
def hexVal (c : Char) : Option Nat :=
  if '0' ≤ c ∧ c ≤ '9' then some (c.toNat - '0'.toNat)
  else if 'a' ≤ c ∧ c ≤ 'f' then some (c.toNat - 'a'.toNat + 10)
  else if 'A' ≤ c ∧ c ≤ 'F' then some (c.toNat - 'A'.toNat + 10)
  else none

/-- Whether `c` is a valid digit for base `b` (bases 2, 10, 16 are used). -/
def digitOk (b : Nat) (c : Char) : Bool :=
  match hexVal c with
  | some v => v < b
  | none => false

/-- Numeric value of a most-significant-first digit string in base `b`. -/
def digitsVal (b : Nat) (ds : List Char) : Nat :=
  ds.foldl (fun a c => b * a + ((hexVal c).getD 0)) 0

/-- Base prefix accepted by Python's `int` with an explicit base:
a leading `0x`/`0X` for base 16 and `0b`/`0B` for base 2. -/
def dropBasePre (b : Nat) (s : List Char) : List Char :=
  if b = 16 then
    match s with
    | '0' :: 'x' :: r => r
    | '0' :: 'X' :: r => r
    | _ => s
  else if b = 2 then
    match s with
    | '0' :: 'b' :: r => r
    | '0' :: 'B' :: r => r
    | _ => s
  else s

/-- Digit-run parsing of Python's `int(s, base)` after sign removal:
an optional base prefix followed by a nonempty run of valid digits.
(Digit-group underscores are omitted from the model: no input handled
by the converter contains them.) -/
def pyDigits (b : Nat) (s : List Char) : Option Nat :=
  let s2 := dropBasePre b s
  if (!s2.isEmpty) && s2.all (digitOk b) then some (digitsVal b s2) else none

/-- Model of Python's `int(s, base)`: whitespace trimmed on both ends,
an optional sign, then a nonempty digit run; `none` models the
`ValueError` raised on anything else. -/
def pyIntB (b : Nat) (s : List Char) : Option Int :=
  match trimWs s with
  | '-' :: r => (pyDigits b r).map (fun v => -(v : Int))
  | '+' :: r => (pyDigits b r).map (fun v => (v : Int))
  | r => (pyDigits b r).map (fun v => (v : Int))

/-- Fuelled computation of the binary digits of a natural number; the
fuel only drives structural recursion and any amount at least `n`
yields the digits of `n`. -/
def natBinF : Nat → Nat → List Char
  | 0, _ => []
  | fuel + 1, n =>
    if n = 0 then [] else natBinF fuel (n / 2) ++ [if n % 2 = 1 then '1' else '0']

/-- Binary digits of a natural number, most significant first
(empty for zero), as produced by Python's `b` format code. -/
def natBin (n : Nat) : List Char :=
  natBinF n n

theorem natBinF_congr : ∀ (f1 : Nat), ∀ (f2 n : Nat), n ≤ f1 → n ≤ f2 →
    natBinF f1 n = natBinF f2 n := by
  intro f1
  induction f1 using Nat.strong_induction_on with
  | _ f1 ih =>
    intro f2 n h1 h2
    cases n with
    | zero => cases f1 <;> cases f2 <;> simp [natBinF]
    | succ m =>
      cases f1 with
      | zero => omega
      | succ g1 =>
        cases f2 with
        | zero => omega
        | succ g2 =>
          simp only [natBinF, Nat.succ_ne_zero, if_false]
          rw [ih g1 (by omega) g2 ((m + 1) / 2) (by omega) (by omega)]

/-- Unfolding equation for `natBin`, matching the recursion of the
digit rendering. -/
theorem natBin_eq (n : Nat) :
    natBin n = if n = 0 then [] else natBin (n / 2) ++ [if n % 2 = 1 then '1' else '0'] := by
  match n with
  | 0 => simp [natBin, natBinF]
  | m + 1 =>
    simp only [natBin, natBinF, Nat.succ_ne_zero, if_false]
    rw [natBinF_congr m ((m + 1) / 2) ((m + 1) / 2) (by omega) (le_refl _)]

/-- Binary rendering of a natural number (the single digit `0` for zero). -/
def binRender (n : Nat) : List Char :=
  if n = 0 then ['0'] else natBin n

/-- Binary rendering of a Python integer: a minus sign followed by the
digits of the absolute value when negative. -/
def intBinRender (n : Int) : List Char :=
  if n < 0 then '-' :: binRender n.natAbs else binRender n.natAbs

/-- Model of the Python expression rendering one row's bits, built by the
source as a format string with code `b` and minimum field width `w`
(the font's column count): the binary digits right-aligned in a field of
`w` characters, padded on the left with spaces.  A negative `w` arises
from a negative column count, whose decimal rendering makes the format
width its absolute value (the leading minus sign is read as a sign
option). -/
def formatB (w : Int) (n : Int) : List Char :=
  let d := intBinRender n
  List.replicate (w.natAbs - d.length) ' ' ++ d

/-- Fatal terminations of the converter.  Constructors named `no...` and
`wrongCodepoint`/`uncontainedBBX` model the script's own RuntimeError
raises; `valueError` models the ValueError escaping from the built-in
`int` (carrying the base and the offending literal), `stopIteration`
the StopIteration escaping from a bare `next` on an exhausted stream,
`indexError` the IndexError from indexing a too-short split, and
`zeroDivisionError` the ZeroDivisionError from the metric divisions.
`badVpad` is the ValueError of the initial argument check. -/
inductive Err where
  | badVpad
  | noFontRecord
  | indexError
  | noFbbRecord
  | zeroDivisionError
  | noEncoding (name : Line)
  | wrongCodepoint (expected : Nat) (found : Line)
  | noBBX (name : Line)
  | valueError (base : Nat) (lit : Line)
  | uncontainedBBX (name : Line)
  | noBitmap (name : Line)
  | noEndchar (name : Line)
  | stopIteration
  deriving DecidableEq

/-- Output writes of the converter, one constructor per `write`/`print`
of the source, carrying the computed data; the out-of-scope textual
formatting (symbol naming, EQU/DC.B boilerplate) is abstracted away. -/
inductive OutLine where
  | header (name : Line) (glyphBytes cols rows vpad screenCols screenRows : Int)
  | glyphName (name : Line)
  | rowComment (art : Line)
  | dcb (bytes : List Int)
  | blank
  | endOfFont
  deriving DecidableEq

/-- Packing of one row's rendered bit string into bytes, as in the
source: successive chunks of eight characters, the last one padded on
the right with `0` characters, each chunk evaluated by `int(chunk, 2)`
(whose failure, modelled as the error case, aborts the conversion). -/
def packBytes : List Char → Except Err (List Int)
  | [] => .ok []
  | c1 :: c2 :: c3 :: c4 :: c5 :: c6 :: c7 :: c8 :: rest =>
    match pyIntB 2 [c1, c2, c3, c4, c5, c6, c7, c8] with
    | none => .error (.valueError 2 [c1, c2, c3, c4, c5, c6, c7, c8])
    | some b =>
      match packBytes rest with
      | .error e => .error e
      | .ok bs => .ok (b :: bs)
  | s =>
    let padded := s ++ List.replicate (8 - s.length) '0'
    match pyIntB 2 padded with
    | none => .error (.valueError 2 padded)
    | some b => .ok [b]

/-- Unfolding equation for `packBytes` in the source's take-eight,
drop-eight form. -/
theorem packBytes_cons (c : Char) (cs : List Char) :
    packBytes (c :: cs) =
      (let chunk := (c :: cs).take 8
       let padded := chunk ++ List.replicate (8 - chunk.length) '0'
       match pyIntB 2 padded with
       | none => .error (.valueError 2 padded)
       | some b =>
         match packBytes ((c :: cs).drop 8) with
         | .error e => .error e
         | .ok bs => .ok (b :: bs)) := by
  match cs with
  | [] => rfl
  | [d2] => rfl
  | [d2, d3] => rfl
  | [d2, d3, d4] => rfl
  | [d2, d3, d4, d5] => rfl
  | [d2, d3, d4, d5, d6] => rfl
  | [d2, d3, d4, d5, d6, d7] => rfl
  | d2 :: d3 :: d4 :: d5 :: d6 :: d7 :: d8 :: rest => rfl

/-- ASCII-art rendering of one row's bit string: `1` becomes a lit
marker, every other character an empty marker. -/
def rowArt (s : List Char) : List Char :=
  s.map (fun c => if c = '1' then '#' else '.')

/-- Python's `str.capitalize()` on an ASCII word. -/
def capWord (w : List Char) : List Char :=
  match w with
  | [] => []
  | c :: cs => c.toUpper :: cs.map Char.toLower

/-- One step of splitting a string on a separator character. -/
def stepSplit (sep : Char) (c : Char) : List (List Char) → List (List Char)
  | [] => [[c]]
  | a :: as => if c = sep then [] :: a :: as else (c :: a) :: as

/-- Python's `str.split(sep)` with an explicit separator (empty pieces
are kept). -/
def splitCh (sep : Char) (s : List Char) : List (List Char) :=
  s.foldr (stepSplit sep) [[]]

/-- Model of joining the space-split words of a name, each capitalized
(used for the font name and the per-glyph names). -/
def joinCapW (s : Line) : Line :=
  ((splitCh ' ' s).map capWord).flatten

/-- Font-name extraction of FSM state 0: the third hyphen-delimited
field of the matched text, its space-split words capitalized and
joined.  `none` models the uncaught IndexError raised when the matched
text has fewer than three hyphen-delimited fields. -/
def fontNameOf (m0 : Line) : Option Line :=
  match splitCh '-' m0 with
  | _ :: _ :: x :: _ => some (joinCapW x)
  | _ => none

/-- Single-pass scan of the record scanner: lines are read in order,
each stripped of trailing whitespace and offered to the matcher; the
first match stops the scan, anything else is skipped silently.  `none`
models reaching the end of the stream without a match. -/
def scanFor {α : Type} (f : Line → Option α) : List Line → Option (α × List Line)
  | [] => none
  | l :: ls =>
    match f (rstripL l) with
    | some a => some (a, ls)
    | none => scanFor f ls

/-- Literal-text matching: `stripLit p s` returns the remainder of `s`
after the literal `p`, when `s` starts with `p`. -/
def stripLit : List Char → List Char → Option (List Char)
  | [], s => some s
  | _ :: _, [] => none
  | p :: ps, c :: cs => if c = p then stripLit ps cs else none

/-- Characters matched by the regex class of a signed-integer field. -/
def isDashDigit (c : Char) : Bool :=
  c = '-' || ('0' ≤ c && c ≤ '9')

/-- One integer field of a bounding-box record followed by a single
space: the maximal nonempty run of the field's character class, then
the separator. -/
def tokSp (l : Line) : Option (Line × Line) :=
  let t := l.takeWhile isDashDigit
  if t.isEmpty then none
  else
    match l.dropWhile isDashDigit with
    | ' ' :: r2 => some (t, r2)
    | _ => none

/-- Matcher for the `FONT` record of state 0 (a prefix match): the
whole stripped line is the matched text. -/
def fontMatch (l : Line) : Option Line :=
  match stripLit ("FONT ".toList) l with
  | some (_ :: _) => some l
  | _ => none

/-- Matcher for the `FONTBOUNDINGBOX` record of state 1 (a full match):
four signed-integer fields separated by single spaces, nothing after
the fourth. -/
def fbbMatch (l : Line) : Option (Line × Line × Line × Line) :=
  match stripLit ("FONTBOUNDINGBOX ".toList) l with
  | none => none
  | some r0 =>
    match tokSp r0 with
    | none => none
    | some (t1, r1) =>
      match tokSp r1 with
      | none => none
      | some (t2, r2) =>
        match tokSp r2 with
        | none => none
        | some (t3, r3) =>
          let t4 := r3.takeWhile isDashDigit
          if t4.isEmpty then none
          else if (r3.dropWhile isDashDigit).isEmpty then some (t1, t2, t3, t4)
          else none

/-- Matcher for the `STARTCHAR` record of state 2: the glyph name is
everything after the literal (at least one character). -/
def startcharMatch (l : Line) : Option Line :=
  match stripLit ("STARTCHAR ".toList) l with
  | some (c :: cs) => some (c :: cs)
  | _ => none

/-- Matcher for the `ENCODING` record of state 3 (a prefix match): the
maximal nonempty digit run after the literal; trailing text is ignored. -/
def encMatch (l : Line) : Option Line :=
  match stripLit ("ENCODING ".toList) l with
  | none => none
  | some r =>
    let t := r.takeWhile Char.isDigit
    if t.isEmpty then none else some t

/-- Matcher for the `BBX` record of state 4 (a prefix match): four
signed-integer fields separated by single spaces; trailing text after
the fourth field is ignored. -/
def bbxMatch (l : Line) : Option (Line × Line × Line × Line) :=
  match stripLit ("BBX ".toList) l with
  | none => none
  | some r0 =>
    match tokSp r0 with
    | none => none
    | some (t1, r1) =>
      match tokSp r1 with
      | none => none
      | some (t2, r2) =>
        match tokSp r2 with
        | none => none
        | some (t3, r3) =>
          let t4 := r3.takeWhile isDashDigit
          if t4.isEmpty then none else some (t1, t2, t3, t4)

/-- Matcher for the `BITMAP` header line of state 5 (an exact
comparison of the stripped line). -/
def bitmapMatch (l : Line) : Option Unit :=
  if l = "BITMAP".toList then some () else none

/-- FSM state 3: scan for the `ENCODING` record and check that its value
equals the codepoint expected next (the glyph counter); a differing
value is the fatal sequence violation. -/
def encodingStep (expected : Nat) (curr : Line) (ls : List Line) :
    Except Err (List Line) :=
  match scanFor encMatch ls with
  | none => .error (.noEncoding curr)
  | some (txt, rest) =>
    if digitsVal 10 txt ≠ expected then .error (.wrongCodepoint expected txt)
    else .ok rest

/-- Containment check of FSM state 4: the glyph's bounds, shifted into
font-relative coordinates, must not extend past the font's bounding
box; `true` means the fatal geometry violation is raised. -/
def bbxReject (cols rows blCol blRow cCols cRows cBlCol cBlRow : Int) : Bool :=
  let cColMin := cBlCol - blCol
  let cColMax := cBlCol - blCol + cCols
  let cRowMin := cBlRow - blRow
  let cRowMax := cBlRow - blRow + cRows
  decide (cColMin < 0 ∨ cColMax > cols ∨ cRowMin < 0 ∨ cRowMax > rows)

/-- Model of Python's `range(a, b)` over integers. -/
def intRange (a b : Int) : List Int :=
  (List.range (b - a).toNat).map (fun i => a + Int.ofNat i)

/-- Font-relative storage indices filled by the glyph's bitmap rows, in
the order the rows are read: index `rows - 1 - c` for `c` running from
`rowMax - 1` down to `rowMin`. -/
def rowIndsOf (rows rowMin rowMax : Int) : List Int :=
  ((intRange rowMin rowMax).reverse).map (fun c => rows - 1 - c)

/-- Python's right shift on an arbitrary-precision integer by a
nonnegative amount (floor division by the power of two). -/
def pyShiftR (v : Int) (k : Int) : Int :=
  v.fdiv (2 ^ k.toNat)

/-- FSM state 4 after the scan: the four `int` conversions (in source
order, each able to raise), the containment check, and the computation
of the row indices the bitmap will fill.  Returns the column shift and
those indices. -/
def bbxStep (cols rows blCol blRow : Int) (curr : Line) (ls : List Line) :
    Except Err ((Int × List Int) × List Line) :=
  match scanFor bbxMatch ls with
  | none => .error (.noBBX curr)
  | some ((t1, t2, t3, t4), rest) =>
    match pyIntB 10 t1 with
    | none => .error (.valueError 10 t1)
    | some cCols =>
      match pyIntB 10 t2 with
      | none => .error (.valueError 10 t2)
      | some cRows =>
        match pyIntB 10 t3 with
        | none => .error (.valueError 10 t3)
        | some cBlCol =>
          match pyIntB 10 t4 with
          | none => .error (.valueError 10 t4)
          | some cBlRow =>
            if bbxReject cols rows blCol blRow cCols cRows cBlCol cBlRow then
              .error (.uncontainedBBX curr)
            else
              .ok ((cBlCol - blCol,
                    rowIndsOf rows (cBlRow - blRow) (cBlRow - blRow + cRows)),
                   rest)

/-- FSM state 6: one raw line (no stripping) is consumed per row index,
parsed as hexadecimal, shifted right by the column offset, and stored
at the index; an exhausted stream or an unparsable line is fatal. -/
def readRows (colMin : Int) : List Int → List Int → List Line →
    Except Err (List Int × List Line)
  | [], bitmap, ls => .ok (bitmap, ls)
  | r :: rs, bitmap, ls =>
    match ls with
    | [] => .error .stopIteration
    | l :: ls2 =>
      match pyIntB 16 l with
      | none => .error (.valueError 16 l)
      | some v => readRows colMin rs (bitmap.set r.toNat (pyShiftR v colMin)) ls2

/-- Per-glyph output phase, row part: for each stored row in storage
order, the bit string is rendered and its art line written, then the
string is packed into bytes collected across all rows; a packing
failure aborts with the art lines written so far. -/
def renderRows (cols : Int) : List Int → List OutLine × Except Err (List Int)
  | [] => ([], .ok [])
  | r :: rs =>
    let s := formatB cols r
    let cmt := OutLine.rowComment (rowArt s)
    match packBytes s with
    | .error e => ([cmt], .error e)
    | .ok bs =>
      match renderRows cols rs with
      | (outs, .error e) => (cmt :: outs, .error e)
      | (outs, .ok rest) => (cmt :: outs, .ok (bs ++ rest))

/-- Per-glyph output phase: the glyph-name comment line, the art lines,
and one data line carrying all the packed bytes, followed by a blank
line. -/
def renderGlyph (fontName curr : Line) (cols : Int) (bitmap : List Int) :
    List OutLine × Except Err Unit :=
  let nameLine := OutLine.glyphName (fontName ++ joinCapW curr)
  match renderRows cols bitmap with
  | (outs, .error e) => (nameLine :: outs, .error e)
  | (outs, .ok bytes) =>
    (nameLine :: (outs ++ [OutLine.dcb bytes, OutLine.blank]), .ok ())

/-- Ceiling of the division of an integer by eight, as computed by the
source through float division and `math.ceil` (exact at these
magnitudes). -/
def ceilDiv8 (a : Int) : Int :=
  -((-a).fdiv 8)

/-- Top-level font data and metrics write (a single output write).  The
two floor divisions are evaluated in source order; a zero divisor is
the fatal uncaught ZeroDivisionError, raised before anything is
written. -/
def headerStep (name : Line) (cols rows vpad : Int) : Except Err OutLine :=
  if cols = 0 then .error .zeroDivisionError
  else if rows + vpad = 0 then .error .zeroDivisionError
  else .ok (.header name (rows * ceilDiv8 cols) cols rows vpad
              ((720 : Int).fdiv cols) ((364 : Int).fdiv (rows + vpad)))

instance {ε α : Type} [DecidableEq ε] [DecidableEq α] : DecidableEq (Except ε α) :=
  fun a b =>
    match a, b with
    | .error e, .error f =>
      if h : e = f then isTrue (by rw [h]) else
        isFalse (by intro hc; injection hc; contradiction)
    | .ok x, .ok y =>
      if h : x = y then isTrue (by rw [h]) else
        isFalse (by intro hc; injection hc; contradiction)
    | .error _, .ok _ => isFalse (by intro hc; exact Except.noConfusion hc)
    | .ok _, .error _ => isFalse (by intro hc; exact Except.noConfusion hc)

/-- Result of a run: the output writes, the codepoints of the glyphs
fully processed and rendered (recorded for specification purposes;
control flow is exactly the source's), and normal or fatal
termination. -/
structure RunOut where
  out : List OutLine
  codepoints : List Nat
  result : Except Err Unit
  deriving DecidableEq

theorem scanFor_some_length {α : Type} (f : Line → Option α) :
    ∀ (ls : List Line) (a : α) (r : List Line),
      scanFor f ls = some (a, r) → r.length < ls.length := by
  intro ls
  induction ls with
  | nil => intro a r h; simp [scanFor] at h
  | cons l ls ih =>
    intro a r h
    simp only [scanFor] at h
    cases hm : f (rstripL l) with
    | some b => rw [hm] at h; injection h with h1; cases h1; simp
    | none =>
      rw [hm] at h
      exact Nat.lt_trans (ih a r h) (by simp)

theorem encodingStep_ok_length (expected : Nat) (curr : Line) (ls rest : List Line)
    (h : encodingStep expected curr ls = .ok rest) : rest.length < ls.length := by
  unfold encodingStep at h
  split at h
  · exact absurd h (by simp)
  · next txt r hm =>
    split at h
    · exact absurd h (by simp)
    · injection h with h1; cases h1
      exact scanFor_some_length _ _ _ _ hm

theorem bbxStep_ok_length (cols rows blCol blRow : Int) (curr : Line)
    (ls : List Line) (v : Int × List Int) (rest : List Line)
    (h : bbxStep cols rows blCol blRow curr ls = .ok (v, rest)) :
    rest.length < ls.length := by
  unfold bbxStep at h
  split at h
  · exact absurd h (by simp)
  · next t1 t2 t3 t4 r hm =>
    have hr := scanFor_some_length _ _ _ _ hm
    split at h
    · exact absurd h (by simp)
    split at h
    · exact absurd h (by simp)
    split at h
    · exact absurd h (by simp)
    split at h
    · exact absurd h (by simp)
    split at h
    · exact absurd h (by simp)
    · injection h with h1; injection h1 with h1 h2; cases h2
      exact hr

theorem readRows_ok_length (colMin : Int) :
    ∀ (inds : List Int) (bitmap : List Int) (ls : List Line)
      (bm : List Int) (rest : List Line),
      readRows colMin inds bitmap ls = .ok (bm, rest) → rest.length ≤ ls.length := by
  intro inds
  induction inds with
  | nil =>
    intro bitmap ls bm rest h
    simp only [readRows] at h
    injection h with h1; injection h1 with h1 h2; cases h2; exact le_refl _
  | cons r rs ih =>
    intro bitmap ls bm rest h
    cases ls with
    | nil => simp [readRows] at h
    | cons l ls2 =>
      simp only [readRows] at h
      split at h
      · exact absurd h (by simp)
      · exact Nat.le_trans (ih _ _ _ _ h) (by simp)

/-- Glyph cycle of the converter (FSM states 2 through 7 plus the
per-glyph output block), iterated with the expected codepoint counter
starting at 0 and incremented per glyph; state 2 reaching the end of
the stream is the normal end of the font. -/
def glyphLoop (fontName : Line) (cols rows blCol blRow : Int) (expected : Nat)
    (lines : List Line) : RunOut :=
  match h2 : scanFor startcharMatch lines with
  | none => ⟨[OutLine.endOfFont], [], .ok ()⟩
  | some (curr, ls1) =>
    match hEnc : encodingStep expected curr ls1 with
    | .error e => ⟨[], [], .error e⟩
    | .ok ls2 =>
      match hBbx : bbxStep cols rows blCol blRow curr ls2 with
      | .error e => ⟨[], [], .error e⟩
      | .ok ((colMin, rowInds), ls3) =>
        match hBit : scanFor bitmapMatch ls3 with
        | none => ⟨[], [], .error (.noBitmap curr)⟩
        | some (_, ls4) =>
          match hRead : readRows colMin rowInds (List.replicate rows.toNat 0) ls4 with
          | .error e => ⟨[], [], .error e⟩
          | .ok (bitmap, ls5) =>
            match ls5 with
            | [] => ⟨[], [], .error .stopIteration⟩
            | fl :: ls6 =>
              if rstripL fl ≠ "ENDCHAR".toList then ⟨[], [], .error (.noEndchar curr)⟩
              else
                match renderGlyph fontName curr cols bitmap with
                | (gOut, .error e) => ⟨gOut, [], .error e⟩
                | (gOut, .ok _) =>
                  let rest := glyphLoop fontName cols rows blCol blRow (expected + 1) ls6
                  ⟨gOut ++ rest.out, expected :: rest.codepoints, rest.result⟩
termination_by lines.length
decreasing_by
  have l1 := scanFor_some_length _ _ _ _ h2
  have l2 := encodingStep_ok_length _ _ _ _ hEnc
  have l3 := bbxStep_ok_length _ _ _ _ _ _ _ _ hBbx
  have l4 := scanFor_some_length _ _ _ _ hBit
  have l5 := readRows_ok_length _ _ _ _ _ _ hRead
  simp only [List.length_cons] at l5
  omega

/-- Whole conversion: the initial vertical-padding argument check, FSM
states 0 and 1, the font-level data and metrics write, and the glyph
cycle with the expected codepoint starting at 0. -/
def runConv (vpad : Int) (lines : List Line) : RunOut :=
  if ¬ (0 ≤ vpad ∧ vpad ≤ 364) then ⟨[], [], .error .badVpad⟩
  else
    match scanFor fontMatch lines with
    | none => ⟨[], [], .error .noFontRecord⟩
    | some (m0, ls0) =>
      match fontNameOf m0 with
      | none => ⟨[], [], .error .indexError⟩
      | some fname =>
        match scanFor fbbMatch ls0 with
        | none => ⟨[], [], .error .noFbbRecord⟩
        | some ((t1, t2, t3, t4), ls1) =>
          match pyIntB 10 t1 with
          | none => ⟨[], [], .error (.valueError 10 t1)⟩
          | some cols =>
            match pyIntB 10 t2 with
            | none => ⟨[], [], .error (.valueError 10 t2)⟩
            | some rows =>
              match pyIntB 10 t3 with
              | none => ⟨[], [], .error (.valueError 10 t3)⟩
              | some blCol =>
                match pyIntB 10 t4 with
                | none => ⟨[], [], .error (.valueError 10 t4)⟩
                | some blRow =>
                  match headerStep fname cols rows vpad with
                  | .error e => ⟨[], [], .error e⟩
                  | .ok h =>
                    let r := glyphLoop fname cols rows blCol blRow 0 ls1
                    ⟨h :: r.out, r.codepoints, r.result⟩

/-- Specification-side rendering (this definition follows the spec's
words, for comparison with the source's `formatB`): the row bitmask as
a binary string of exactly `w` characters, zero-padded on the left,
most significant bit first. -/
def bitsFix : Nat → Nat → List Char
  | 0, _ => []
  | w + 1, n => bitsFix w (n / 2) ++ [if n % 2 = 1 then '1' else '0']

/-- Specification-side unpacking of one packed byte back into its eight
bit characters, most significant bit first. -/
def byteBits (b : Int) : List Char :=
  bitsFix 8 b.toNat

/-- Helper for building concrete inputs: a list of lines given as
string literals. -/
def mkIn (l : List String) : List Line :=
  l.map String.toList

/-- Input of the spec's cols-12 worked example: a 12-column one-row
font with a glyph of BBX `8 1 2 0` and the single bitmap row `FF`. -/
def bdfC2 : List Line :=
  mkIn ["FONT -x-test-y", "FONTBOUNDINGBOX 12 1 0 0", "STARTCHAR A",
        "ENCODING 0", "BBX 8 1 2 0", "BITMAP", "FF", "ENDCHAR"]

/-- C2: the claim's worked example does not hold on the code.  For the
cols-12 font with glyph BBX `8 1 2 0` and row `FF`, the code
right-shifts the decoded row by the column offset, so the glyph's bits
land in columns 6 through 11 instead of 2 through 9: the rendered row
string is six spaces followed by `111111` (not `001111111100`), and the
packed bytes are `0x03, 0xF0` (not `0x3F, 0xC0`). -/
theorem c2_divergence :
    runConv 1 bdfC2 =
      ⟨[.header ("Test".toList) 2 12 1 1 60 182,
        .glyphName ("TestA".toList),
        .rowComment ("......######".toList),
        .dcb [3, 240], .blank, .endOfFont], [0], .ok ()⟩ ∧
    pyShiftR 255 2 = 63 ∧
    formatB 12 63 = "      111111".toList ∧
    packBytes ("      111111".toList) = .ok [3, 240] ∧
    formatB 12 63 ≠ "001111111100".toList ∧
    ([3, 240] : List Int) ≠ [63, 192] := by
  refine ⟨?_, rfl, rfl, rfl, ?_, by decide⟩
  · unfold runConv glyphLoop glyphLoop
    rfl
  · intro hcontra
    rw [show formatB 12 63 = "      111111".toList from rfl] at hcontra
    exact absurd hcontra (by decide)

/-- Input with a negative font bounding box (cols and rows both
negative), followed by a glyph whose bounding box matches it. -/
def bdfC5Neg : List Line :=
  mkIn ["FONT -a-b-c", "FONTBOUNDINGBOX -8 -2 0 0", "STARTCHAR A",
        "ENCODING 0", "BBX -8 -2 0 0", "BITMAP", "ENDCHAR"]

/-- Input with a zero-row font bounding box, followed by a glyph whose
bounding box matches it. -/
def bdfC5ZeroRows : List Line :=
  mkIn ["FONT -a-b-c", "FONTBOUNDINGBOX 8 0 0 0", "STARTCHAR A",
        "ENCODING 0", "BBX 8 0 0 0", "BITMAP", "ENDCHAR"]

/-- Input with a zero-column font bounding box. -/
def bdfC5ZeroCols : List Line :=
  mkIn ["FONT -a-b-c", "FONTBOUNDINGBOX 0 5 0 0"]

/-- C5 counterexample: an input declaring a negative bounding box is
accepted past state 1 (the record pattern admits any signed integers)
and the conversion runs to completion, producing header and glyph
output, refuting both the claimed invariant and the claim that such
inputs produce no output. -/
theorem c5_counterexample :
    fbbMatch (rstripL ("FONTBOUNDINGBOX -8 -2 0 0".toList)) =
      some ("-8".toList, "-2".toList, "0".toList, "0".toList) ∧
    pyIntB 10 ("-8".toList) = some (-8) ∧
    ¬ ((-8 : Int) > 0) ∧
    (runConv 1 bdfC5Neg).result = .ok () ∧
    (runConv 1 bdfC5Neg).out ≠ [] := by
  refine ⟨rfl, rfl, by decide, ?_, ?_⟩
  · unfold runConv glyphLoop glyphLoop
    rfl
  · unfold runConv glyphLoop glyphLoop
    intro hcontra
    exact absurd (congrArg List.length hcontra) (by decide)

/-- C5 amended: state 1 accepts a FONTBOUNDINGBOX record with any four
signed integers and establishes no positivity invariant.  A font with
negative columns and rows, or with zero rows, proceeds through glyph
processing and produces output; a zero column count aborts with an
uncaught division-by-zero error at the metric computation (not with any
documented fatal error). -/
theorem c5_amended :
    runConv 1 bdfC5Neg =
      ⟨[.header ("B".toList) 2 (-8) (-2) 1 (-90) (-364),
        .glyphName ("BA".toList), .dcb [], .blank, .endOfFont], [0], .ok ()⟩ ∧
    runConv 1 bdfC5ZeroRows =
      ⟨[.header ("B".toList) 0 8 0 1 90 364,
        .glyphName ("BA".toList), .dcb [], .blank, .endOfFont], [0], .ok ()⟩ ∧
    runConv 1 bdfC5ZeroCols = ⟨[], [], .error .zeroDivisionError⟩ := by
  refine ⟨?_, ?_, ?_⟩
  · unfold runConv glyphLoop glyphLoop
    rfl
  · unfold runConv glyphLoop glyphLoop
    rfl
  · rfl

/-- Input whose glyph bounding box, shifted into font coordinates,
exceeds the font's bounds (column max 9 in an 8-column font). -/
def bdfC7Bad : List Line :=
  mkIn ["FONT -a-b-c", "FONTBOUNDINGBOX 8 2 0 0", "STARTCHAR A",
        "ENCODING 0", "BBX 8 8 1 0", "BITMAP"]

/-- Input whose glyph bounding box exactly matches the font's full
bounding box. -/
def bdfC7Full : List Line :=
  mkIn ["FONT -a-b-c", "FONTBOUNDINGBOX 8 2 0 0", "STARTCHAR A",
        "ENCODING 0", "BBX 8 2 0 0", "BITMAP", "FF", "00", "ENDCHAR"]

/-- C7: the geometry check rejects exactly when `col_min < 0`,
`col_max > cols`, `row_min < 0` or `row_max > rows` (in font-relative
coordinates), a glyph bounding box identical to the font's is always
accepted, and on concrete inputs the rejection is the fatal
geometry-violation error while the exact-match glyph converts
successfully. -/
theorem c7_confirmed :
    (∀ cols rows blCol blRow cCols cRows cBlCol cBlRow : Int,
      bbxReject cols rows blCol blRow cCols cRows cBlCol cBlRow = true ↔
        (cBlCol - blCol < 0 ∨ cBlCol - blCol + cCols > cols ∨
         cBlRow - blRow < 0 ∨ cBlRow - blRow + cRows > rows)) ∧
    (∀ cols rows blCol blRow : Int,
      bbxReject cols rows blCol blRow cols rows blCol blRow = false) ∧
    runConv 1 bdfC7Bad =
      ⟨[.header ("B".toList) 2 8 2 1 90 121], [], .error (.uncontainedBBX ("A".toList))⟩ ∧
    runConv 1 bdfC7Full =
      ⟨[.header ("B".toList) 2 8 2 1 90 121, .glyphName ("BA".toList),
        .rowComment ("########".toList), .rowComment ("........".toList),
        .dcb [255, 0], .blank, .endOfFont], [0], .ok ()⟩ := by
  refine ⟨?_, ?_, ?_, ?_⟩
  · intro cols rows blCol blRow cCols cRows cBlCol cBlRow
    simp [bbxReject]
  · intro cols rows blCol blRow
    simp [bbxReject]
  · unfold runConv glyphLoop
    rfl
  · unfold runConv glyphLoop glyphLoop
    rfl

/-- C9: the font-name extraction is total exactly on matched FONT lines
with at least three hyphen-delimited fields, and on the line
`FONT myfont` (which the state-0 pattern matches but which splits into
a single field) the conversion aborts with the uncaught indexing error
rather than any documented fatal error. -/
theorem c9_confirmed :
    (∀ m0 : Line, (fontNameOf m0).isSome ↔ 3 ≤ (splitCh '-' m0).length) ∧
    fontMatch (rstripL ("FONT myfont".toList)) = some ("FONT myfont".toList) ∧
    (splitCh '-' ("FONT myfont".toList)).length = 1 ∧
    runConv 1 (mkIn ["FONT myfont"]) = ⟨[], [], .error .indexError⟩ := by
  refine ⟨?_, rfl, rfl, rfl⟩
  intro m0
  rcases h : splitCh '-' m0 with _ | ⟨a, _ | ⟨b, _ | ⟨c, rest⟩⟩⟩ <;>
    simp [fontNameOf, h]

theorem glyphLoop_state7 (fn : Line) (cols rows blCol blRow : Int) (e : Nat)
    (lines : List Line) (curr : Line) (ls1 ls2 : List Line) (colMin : Int)
    (rowInds : List Int) (ls3 ls4 : List Line) (bitmap : List Int)
    (fl : Line) (ls6 : List Line)
    (h2 : scanFor startcharMatch lines = some (curr, ls1))
    (h3 : encodingStep e curr ls1 = .ok ls2)
    (h4 : bbxStep cols rows blCol blRow curr ls2 = .ok ((colMin, rowInds), ls3))
    (h5 : scanFor bitmapMatch ls3 = some ((), ls4))
    (h6 : readRows colMin rowInds (List.replicate rows.toNat 0) ls4 = .ok (bitmap, fl :: ls6))
    (h7 : rstripL fl ≠ "ENDCHAR".toList) :
    glyphLoop fn cols rows blCol blRow e lines = ⟨[], [], .error (.noEndchar curr)⟩ := by
  unfold glyphLoop
  split
  · next hx => rw [h2] at hx; exact Option.noConfusion hx
  · next curr' ls1' hx =>
    rw [h2] at hx
    injection hx with hp
    injection hp with hc hl
    subst hc; subst hl
    split
    · next e' hx2 => rw [h3] at hx2; exact Except.noConfusion hx2
    · next ls2' hx2 =>
      rw [h3] at hx2
      injection hx2 with hl2
      subst hl2
      split
      · next e' hx3 => rw [h4] at hx3; exact Except.noConfusion hx3
      · next colMin' rowInds' ls3' hx3 =>
        rw [h4] at hx3
        injection hx3 with hp3
        injection hp3 with hp3a hl3
        injection hp3a with hcm hri
        subst hcm; subst hri; subst hl3
        split
        · next hx4 => rw [h5] at hx4; exact Option.noConfusion hx4
        · next u ls4' hx4 =>
          rw [h5] at hx4
          injection hx4 with hp4
          injection hp4 with _ hl4
          subst hl4
          split
          · next e' hx5 => rw [h6] at hx5; exact Except.noConfusion hx5
          · next bitmap' ls5' hx5 =>
            rw [h6] at hx5
            injection hx5 with hp5
            injection hp5 with hbm hl5
            subst hbm; subst hl5
            split
            · next heq hh => exact List.noConfusion heq
            · next fl2 ls62 heq hh =>
              injection heq with hf hl6
              subst hf; subst hl6
              rw [if_pos h7]

/-- Input family for the missing-footer scenario: a complete one-row
glyph whose bitmap is followed by an arbitrary line `footer` (in place
of `ENDCHAR`) and arbitrary further lines. -/
def bdfC8 (footer : Line) (more : List Line) : List Line :=
  mkIn ["FONT -a-b-c", "FONTBOUNDINGBOX 8 1 0 0", "STARTCHAR A",
        "ENCODING 0", "BBX 8 1 0 0", "BITMAP", "FF"] ++ footer :: more

/-- Input with a complete bitmap whose stream ends right after the
rows, with no footer line at all. -/
def bdfC8Exhausted : List Line :=
  mkIn ["FONT -a-b-c", "FONTBOUNDINGBOX 8 1 0 0", "STARTCHAR A",
        "ENCODING 0", "BBX 8 1 0 0", "BITMAP", "FF"]

/-- C8 counterexample: when the stream is exhausted right after a
glyph's bitmap rows, the conversion aborts with the uncaught
stream-exhaustion error of the bare `next` call, not with the
documented `no ENDCHAR footer` fatal error claimed for this case. -/
theorem c8_counterexample :
    runConv 1 bdfC8Exhausted =
      ⟨[.header ("B".toList) 1 8 1 1 90 182], [], .error .stopIteration⟩ ∧
    Err.stopIteration ≠ Err.noEndchar ("A".toList) := by
  refine ⟨?_, by decide⟩
  unfold runConv glyphLoop
  rfl

/-- C8 amended: after a glyph's bitmap rows have been read, if a next
line exists and (stripped) differs from `ENDCHAR`, the conversion
raises the fatal `no ENDCHAR footer` error naming the glyph and halts
before processing any further glyphs (arbitrary trailing lines are
never examined); but when the stream is exhausted at that point the
conversion instead aborts with an uncaught stream-exhaustion error. -/
theorem c8_amended (footer : Line) (more : List Line)
    (h7 : rstripL footer ≠ "ENDCHAR".toList) :
    runConv 1 (bdfC8 footer more) =
      ⟨[.header ("B".toList) 1 8 1 1 90 182], [], .error (.noEndchar ("A".toList))⟩ := by
  have hloop := glyphLoop_state7 ("B".toList) 8 1 0 0 0
    (mkIn ["STARTCHAR A", "ENCODING 0", "BBX 8 1 0 0", "BITMAP", "FF"] ++ footer :: more)
    ("A".toList)
    (mkIn ["ENCODING 0", "BBX 8 1 0 0", "BITMAP", "FF"] ++ footer :: more)
    (mkIn ["BBX 8 1 0 0", "BITMAP", "FF"] ++ footer :: more)
    0 [0]
    (mkIn ["BITMAP", "FF"] ++ footer :: more)
    (mkIn ["FF"] ++ footer :: more)
    [255] footer more rfl rfl rfl rfl rfl h7
  have hrun : runConv 1 (bdfC8 footer more) =
      ⟨.header ("B".toList) 1 8 1 1 90 182 ::
         (glyphLoop ("B".toList) 8 1 0 0 0
           (mkIn ["STARTCHAR A", "ENCODING 0", "BBX 8 1 0 0", "BITMAP", "FF"] ++
             footer :: more)).out,
       (glyphLoop ("B".toList) 8 1 0 0 0
         (mkIn ["STARTCHAR A", "ENCODING 0", "BBX 8 1 0 0", "BITMAP", "FF"] ++
           footer :: more)).codepoints,
       (glyphLoop ("B".toList) 8 1 0 0 0
         (mkIn ["STARTCHAR A", "ENCODING 0", "BBX 8 1 0 0", "BITMAP", "FF"] ++
           footer :: more)).result⟩ := rfl
  rw [hrun, hloop]

/-- C8 witness: a concrete non-`ENDCHAR` footer line with trailing
glyphs behind it triggers the fatal error and stops processing. -/
theorem c8_witness :
    rstripL ("X".toList) ≠ "ENDCHAR".toList ∧
    runConv 1 (bdfC8 ("X".toList) (mkIn ["STARTCHAR B"])) =
      ⟨[.header ("B".toList) 1 8 1 1 90 182], [], .error (.noEndchar ("A".toList))⟩ :=
  ⟨by decide, c8_amended ("X".toList) (mkIn ["STARTCHAR B"]) (by decide)⟩

theorem glyphLoop_codepoints (fn : Line) (cols rows blCol blRow : Int) :
    ∀ (n : Nat) (ls : List Line), ls.length ≤ n → ∀ (e : Nat),
      ∃ k, (glyphLoop fn cols rows blCol blRow e ls).codepoints = List.range' e k := by
  intro n
  induction n with
  | zero =>
    intro ls hls e
    have hnil : ls = [] := List.eq_nil_of_length_eq_zero (Nat.le_zero.mp hls)
    subst hnil
    exact ⟨0, by unfold glyphLoop; rfl⟩
  | succ m ih =>
    intro ls hls e
    unfold glyphLoop
    split
    · exact ⟨0, rfl⟩
    · next curr ls1 h2 =>
      split
      · exact ⟨0, rfl⟩
      · next ls2 h3 =>
        split
        · exact ⟨0, rfl⟩
        · next colMin rowInds ls3 h4 =>
          split
          · exact ⟨0, rfl⟩
          · next u ls4 h5 =>
            split
            · exact ⟨0, rfl⟩
            · next bitmap ls5 h6 =>
              split
              · exact ⟨0, rfl⟩
              · next ls5v hOld fl ls6 =>
                by_cases h7 : rstripL fl ≠ "ENDCHAR".toList
                · rw [if_pos h7]; exact ⟨0, rfl⟩
                · rw [if_neg h7]
                  split
                  · exact ⟨0, rfl⟩
                  · next gOut a hR =>
                    have hlen : ls6.length ≤ m := by
                      have l1 := scanFor_some_length _ _ _ _ h2
                      have l2 := encodingStep_ok_length _ _ _ _ h3
                      have l3 := bbxStep_ok_length _ _ _ _ _ _ _ _ h4
                      have l4 := scanFor_some_length _ _ _ _ h5
                      have l5 := readRows_ok_length _ _ _ _ _ _ h6
                      simp only [List.length_cons] at l5
                      omega
                    obtain ⟨k, hk⟩ := ih ls6 hlen (e + 1)
                    refine ⟨k + 1, ?_⟩
                    show e :: (glyphLoop fn cols rows blCol blRow (e + 1) ls6).codepoints =
                      List.range' e (k + 1)
                    rw [hk]
                    rfl

/-- C6: over any input and padding, the codepoints of the glyphs the
conversion accepts and renders are exactly `0, 1, ..., N-1` in order
with no gaps; and in state 3, a scanned ENCODING value differing from
the expected codepoint raises the fatal sequence-violation error
carrying the expected codepoint and the found text. -/
theorem c6_confirmed :
    (∀ (vpad : Int) (lines : List Line),
      (runConv vpad lines).codepoints =
        List.range (runConv vpad lines).codepoints.length) ∧
    (∀ (expected : Nat) (curr : Line) (ls : List Line) (txt : Line) (rest : List Line),
      scanFor encMatch ls = some (txt, rest) → digitsVal 10 txt ≠ expected →
      encodingStep expected curr ls = .error (.wrongCodepoint expected txt)) := by
  constructor
  · intro vpad lines
    unfold runConv
    split
    · rfl
    split
    · rfl
    · next m0 ls0 hm =>
      split
      · rfl
      · next fname hf =>
        split
        · rfl
        · next t1 t2 t3 t4 ls1 hfbb =>
          split
          · rfl
          · next cols hc =>
            split
            · rfl
            · next rows hr =>
              split
              · rfl
              · next blCol hbc =>
                split
                · rfl
                · next blRow hbr =>
                  split
                  · rfl
                  · next h hh =>
                    obtain ⟨k, hk⟩ :=
                      glyphLoop_codepoints fname cols rows blCol blRow
                        ls1.length ls1 (le_refl _) 0
                    show (glyphLoop fname cols rows blCol blRow 0 ls1).codepoints =
                      List.range
                        (glyphLoop fname cols rows blCol blRow 0 ls1).codepoints.length
                    rw [hk, List.length_range', List.range_eq_range']
  · intro expected curr ls txt rest hscan hv
    unfold encodingStep
    simp only [hscan]
    rw [if_pos hv]

/-- C6 witness: with one glyph already expected (counter at 1), a
scanned `ENCODING 2` line is a sequence violation. -/
theorem c6_witness :
    scanFor encMatch (mkIn ["ENCODING 2"]) = some ("2".toList, []) ∧
    digitsVal 10 ("2".toList) ≠ 1 ∧
    encodingStep 1 ("A".toList) (mkIn ["ENCODING 2"]) =
      .error (.wrongCodepoint 1 ("2".toList)) :=
  ⟨rfl, by decide,
   c6_confirmed.2 1 ("A".toList) (mkIn ["ENCODING 2"]) ("2".toList) [] rfl (by decide)⟩

theorem digitsVal_append_singleton (b : Nat) (l : List Char) (c : Char) :
    digitsVal b (l ++ [c]) = b * digitsVal b l + (hexVal c).getD 0 := by
  simp [digitsVal, List.foldl_append]

theorem digitsVal_natBin (n : Nat) : digitsVal 2 (natBin n) = n := by
  induction n using Nat.strong_induction_on with
  | _ n ih =>
    rw [natBin_eq]
    by_cases h : n = 0
    · simp [h, digitsVal]
    · rw [if_neg h, digitsVal_append_singleton,
        ih (n / 2) (Nat.div_lt_self (Nat.pos_of_ne_zero h) one_lt_two)]
      by_cases h2 : n % 2 = 1
      · rw [if_pos h2]
        have hv : (hexVal '1').getD 0 = 1 := by decide
        rw [hv]; omega
      · rw [if_neg h2]
        have hv : (hexVal '0').getD 0 = 0 := by decide
        rw [hv]; omega

theorem digitsVal_binRender (n : Nat) : digitsVal 2 (binRender n) = n := by
  unfold binRender
  by_cases h : n = 0
  · subst h; decide
  · rw [if_neg h]; exact digitsVal_natBin n

theorem natBin_bits (n : Nat) : ∀ c ∈ natBin n, c = '0' ∨ c = '1' := by
  induction n using Nat.strong_induction_on with
  | _ n ih =>
    intro c hc
    rw [natBin_eq] at hc
    by_cases h : n = 0
    · simp [h] at hc
    · rw [if_neg h] at hc
      rcases List.mem_append.mp hc with hm | hm
      · exact ih (n / 2) (Nat.div_lt_self (Nat.pos_of_ne_zero h) one_lt_two) c hm
      · rcases List.mem_singleton.mp hm with rfl
        by_cases h2 : n % 2 = 1 <;> simp [h2]

theorem binRender_bits (n : Nat) : ∀ c ∈ binRender n, c = '0' ∨ c = '1' := by
  unfold binRender
  by_cases h : n = 0
  · simp [h]
  · rw [if_neg h]; exact natBin_bits n

theorem binRender_ne_nil (n : Nat) : binRender n ≠ [] := by
  unfold binRender
  by_cases h : n = 0
  · simp [h]
  · rw [if_neg h]
    intro hcon
    have hv := digitsVal_natBin n
    rw [hcon] at hv
    simp [digitsVal] at hv
    exact h hv.symm

theorem natBin_length_le : ∀ (w n : Nat), n < 2 ^ w → (natBin n).length ≤ w := by
  intro w
  induction w with
  | zero =>
    intro n hn
    interval_cases n
    simp [natBin, natBinF]
  | succ v ih =>
    intro n hn
    rw [natBin_eq]
    by_cases h : n = 0
    · simp [h]
    · rw [if_neg h]
      have hd : n / 2 < 2 ^ v := by omega
      have := ih (n / 2) hd
      simp only [List.length_append, List.length_singleton]
      omega

theorem binRender_length_le (w n : Nat) (h1 : 1 ≤ w) (h2 : n < 2 ^ w) :
    (binRender n).length ≤ w := by
  unfold binRender
  by_cases h : n = 0
  · simp [h]; omega
  · rw [if_neg h]; exact natBin_length_le w n h2

theorem bitsFix_digitsVal (l : List Char) (hb : ∀ c ∈ l, c = '0' ∨ c = '1') :
    bitsFix l.length (digitsVal 2 l) = l := by
  induction l using List.reverseRecOn with
  | nil => rfl
  | append_singleton t c ih =>
    have hc : c = '0' ∨ c = '1' := hb c (by simp)
    have ht : ∀ x ∈ t, x = '0' ∨ x = '1' := fun x hx => hb x (by simp [hx])
    rw [digitsVal_append_singleton]
    simp only [List.length_append, List.length_singleton]
    rw [show t.length + 1 = t.length + 1 from rfl]
    rw [bitsFix]
    rcases hc with rfl | rfl
    · have hv : (hexVal '0').getD 0 = 0 := by decide
      rw [hv]
      have hdiv : (2 * digitsVal 2 t + 0) / 2 = digitsVal 2 t := by omega
      have hmod : ¬ ((2 * digitsVal 2 t + 0) % 2 = 1) := by omega
      rw [hdiv, if_neg hmod, ih ht]
    · have hv : (hexVal '1').getD 0 = 1 := by decide
      rw [hv]
      have hdiv : (2 * digitsVal 2 t + 1) / 2 = digitsVal 2 t := by omega
      have hmod : (2 * digitsVal 2 t + 1) % 2 = 1 := by omega
      rw [hdiv, if_pos hmod, ih ht]

theorem digitsVal_replicate_zero (k : Nat) : digitsVal 2 (List.replicate k '0') = 0 := by
  induction k with
  | zero => rfl
  | succ m ih =>
    rw [List.replicate_succ']
    rw [digitsVal_append_singleton, ih]
    decide

theorem digitsVal_append_replicate_zero (l : List Char) (k : Nat) :
    digitsVal 2 (l ++ List.replicate k '0') = digitsVal 2 l * 2 ^ k := by
  induction k with
  | zero => simp
  | succ m ih =>
    rw [List.replicate_succ', ← List.append_assoc, digitsVal_append_singleton, ih]
    have hv : (hexVal '0').getD 0 = 0 := by decide
    rw [hv]
    ring

theorem digitsVal_replicate_zero_append (k : Nat) (l : List Char) :
    digitsVal 2 (List.replicate k '0' ++ l) = digitsVal 2 l := by
  have h0 := digitsVal_replicate_zero k
  simp only [digitsVal, List.foldl_append] at *
  rw [h0]

theorem dropWhile_ws_replicate (p : Nat) (l : List Char) :
    (List.replicate p ' ' ++ l).dropWhile isPyWs = l.dropWhile isPyWs := by
  induction p with
  | zero => simp
  | succ m ih =>
    rw [List.replicate_succ]
    simp only [List.cons_append, List.dropWhile_cons]
    rw [if_pos (by decide)]
    exact ih

theorem dropWhile_ws_bits (l : List Char) (hb : ∀ c ∈ l, c = '0' ∨ c = '1') :
    l.dropWhile isPyWs = l := by
  cases l with
  | nil => rfl
  | cons c cs =>
    rcases hb c (by simp) with rfl | rfl <;>
      simp [List.dropWhile_cons, isPyWs]

theorem trimWs_spaces_bits (p : Nat) (t : List Char)
    (hb : ∀ c ∈ t, c = '0' ∨ c = '1') :
    trimWs (List.replicate p ' ' ++ t) = t := by
  unfold trimWs
  rw [dropWhile_ws_replicate, dropWhile_ws_bits t hb]
  rw [dropWhile_ws_bits t.reverse (fun c hc => hb c (List.mem_reverse.mp hc))]
  exact List.reverse_reverse t

theorem dropBasePre_bits (l : List Char) (hb : ∀ c ∈ l, c = '0' ∨ c = '1') :
    dropBasePre 2 l = l := by
  match l with
  | [] => rfl
  | [c] =>
    rcases hb c (by simp) with rfl | rfl <;> rfl
  | c :: c2 :: r =>
    rcases hb c (by simp) with rfl | rfl <;>
      rcases hb c2 (by simp) with rfl | rfl <;> rfl

theorem pyDigits_bits (t : List Char) (hb : ∀ c ∈ t, c = '0' ∨ c = '1')
    (hne : t ≠ []) : pyDigits 2 t = some (digitsVal 2 t) := by
  unfold pyDigits
  rw [dropBasePre_bits t hb]
  rw [if_pos]
  rw [Bool.and_eq_true]
  constructor
  · cases t with
    | nil => exact absurd rfl hne
    | cons c cs => rfl
  · rw [List.all_eq_true]
    intro c hc
    rcases hb c hc with rfl | rfl <;> decide

theorem pyIntB_spaces_bits (p : Nat) (t : List Char)
    (hb : ∀ c ∈ t, c = '0' ∨ c = '1') (hne : t ≠ []) :
    pyIntB 2 (List.replicate p ' ' ++ t) = some ((digitsVal 2 t : Nat) : Int) := by
  unfold pyIntB
  rw [trimWs_spaces_bits p t hb]
  cases t with
  | nil => exact absurd rfl hne
  | cons c cs =>
    have hdp := pyDigits_bits (c :: cs) hb hne
    rcases hb c (by simp) with rfl | rfl
    · show (pyDigits 2 ('0' :: cs)).map (fun v => (v : Int)) = _
      rw [hdp]
      rfl
    · show (pyDigits 2 ('1' :: cs)).map (fun v => (v : Int)) = _
      rw [hdp]
      rfl

theorem byteBits_natCast (v : Nat) : byteBits ((v : Nat) : Int) = bitsFix 8 v := by
  unfold byteBits
  rw [Int.toNat_natCast]

theorem packBytes_bits : ∀ (n : Nat) (l : List Char), l.length ≤ n →
    (∀ c ∈ l, c = '0' ∨ c = '1') →
    ∃ bs, packBytes l = .ok bs ∧
      bs.flatMap byteBits = l ++ List.replicate ((8 - l.length % 8) % 8) '0' := by
  intro n
  induction n with
  | zero =>
    intro l hl _
    have : l = [] := List.eq_nil_of_length_eq_zero (Nat.le_zero.mp hl)
    subst this
    exact ⟨[], rfl, by decide⟩
  | succ m ih =>
    intro l hl hb
    cases l with
    | nil => exact ⟨[], rfl, by decide⟩
    | cons c cs =>
      rw [packBytes_cons]
      dsimp only
      set chunk := (c :: cs).take 8 with hchunk
      set rest := (c :: cs).drop 8 with hrest
      set q := 8 - chunk.length with hq
      have hbChunk : ∀ x ∈ chunk ++ List.replicate q '0', x = '0' ∨ x = '1' := by
        intro x hx
        rcases List.mem_append.mp hx with hm | hm
        · exact hb x (List.take_subset 8 (c :: cs) hm)
        · exact Or.inl (List.eq_of_mem_replicate hm)
      have hceight : (chunk ++ List.replicate q '0').length = 8 := by
        rw [List.length_append, List.length_replicate, hq, hchunk]
        simp only [List.length_take]
        omega
      have hpy : pyIntB 2 (chunk ++ List.replicate q '0') =
          some ((digitsVal 2 (chunk ++ List.replicate q '0') : Nat) : Int) := by
        have := pyIntB_spaces_bits 0 (chunk ++ List.replicate q '0') hbChunk
          (by intro hcon; rw [hcon] at hceight; simp at hceight)
        simpa using this
      rw [hpy]
      have hrb : ∀ x ∈ rest, x = '0' ∨ x = '1' :=
        fun x hx => hb x (List.drop_subset 8 (c :: cs) hx)
      have hrlen : rest.length ≤ m := by
        rw [hrest]
        simp only [List.length_drop, List.length_cons]
        simp only [List.length_cons] at hl
        omega
      obtain ⟨bs', hok', hflat'⟩ := ih rest hrlen hrb
      rw [hok']
      refine ⟨_ :: bs', rfl, ?_⟩
      rw [List.flatMap_cons, byteBits_natCast, hflat']
      have hfix : bitsFix 8 (digitsVal 2 (chunk ++ List.replicate q '0')) =
          chunk ++ List.replicate q '0' := by
        have := bitsFix_digitsVal (chunk ++ List.replicate q '0') hbChunk
        rw [hceight] at this
        exact this
      rw [hfix]
      by_cases hlong : 8 ≤ (c :: cs).length
      · have hc8 : chunk.length = 8 := by
          rw [hchunk]; simp only [List.length_take]; omega
        have hq0 : q = 0 := by omega
        rw [hq0]
        simp only [List.replicate_zero, List.append_nil]
        rw [← List.append_assoc, List.take_append_drop]
        have hrl : rest.length = cs.length + 1 - 8 := by
          rw [hrest]; simp
        congr 2
        simp only [List.length_cons]
        rw [hrl]
        simp only [List.length_cons] at hlong
        have hmodsub : (cs.length + 1 - 8) % 8 = (cs.length + 1) % 8 := by omega
        rw [hmodsub]
      · have hrnil : rest = [] := by
          rw [hrest]
          exact List.drop_eq_nil_of_le (by omega)
        have hcall : chunk = c :: cs := by
          rw [hchunk]
          exact List.take_of_length_le (by omega)
        rw [hrnil, hcall]
        simp only [List.length_nil, List.nil_append]
        have : (8 - (0 : Nat) % 8) % 8 = 0 := by decide
        rw [this]
        simp only [List.replicate_zero, List.append_nil]
        congr 2
        simp only [List.length_cons] at hlong ⊢
        have hsmall : (cs.length + 1) % 8 = cs.length + 1 := by omega
        rw [hsmall, hq, hcall]
        simp only [List.length_cons]
        omega

/-- Unfolding of `packBytes` for any nonempty string. -/
theorem packBytes_ne_nil (s : List Char) (h : s ≠ []) :
    packBytes s =
      (let chunk := s.take 8
       let padded := chunk ++ List.replicate (8 - chunk.length) '0'
       match pyIntB 2 padded with
       | none => .error (.valueError 2 padded)
       | some b =>
         match packBytes (s.drop 8) with
         | .error e => .error e
         | .ok bs => .ok (b :: bs)) := by
  cases s with
  | nil => exact absurd rfl h
  | cons c cs => exact packBytes_cons c cs

theorem packBytes_allspace (p : Nat) (hp : 8 ≤ p) (d : List Char) :
    packBytes (List.replicate p ' ' ++ d) =
      .error (.valueError 2 (List.replicate 8 ' ')) := by
  have hne : List.replicate p ' ' ++ d ≠ [] := by
    simp only [ne_eq, List.append_eq_nil, not_and]
    intro hrep
    have := congrArg List.length hrep
    simp at this
    omega
  rw [packBytes_ne_nil _ hne]
  dsimp only
  have htake : (List.replicate p ' ' ++ d).take 8 = List.replicate 8 ' ' := by
    rw [List.take_append_eq_append_take, List.take_replicate, min_eq_left hp]
    rw [show 8 - (List.replicate p ' ').length = 0 from by simp; omega]
    simp
  rw [htake]
  rw [show (8 : Nat) - (List.replicate 8 ' ').length = 0 from by simp]
  simp only [List.replicate_zero, List.append_nil]
  rw [show pyIntB 2 (List.replicate 8 ' ') = none from by decide]

theorem packBytes_spaces (p : Nat) (hp : p < 8) (d : List Char) (hd : d ≠ [])
    (hb : ∀ c ∈ d, c = '0' ∨ c = '1') :
    packBytes (List.replicate p ' ' ++ d) = packBytes (List.replicate p '0' ++ d) := by
  cases Nat.eq_zero_or_pos p with
  | inl hz => subst hz; rfl
  | inr hpos =>
    have hne1 : List.replicate p ' ' ++ d ≠ [] := by
      intro hcon
      exact hd (List.append_eq_nil.mp hcon).2
    have hne2 : List.replicate p '0' ++ d ≠ [] := by
      intro hcon
      exact hd (List.append_eq_nil.mp hcon).2
    rw [packBytes_ne_nil _ hne1, packBytes_ne_nil _ hne2]
    dsimp only
    have htake : ∀ ch : Char, (List.replicate p ch ++ d).take 8 =
        List.replicate p ch ++ d.take (8 - p) := by
      intro ch
      rw [List.take_append_eq_append_take]
      congr 1
      · exact List.take_of_length_le (by simp; omega)
      · congr 1
        simp
    have hdrop : ∀ ch : Char, (List.replicate p ch ++ d).drop 8 = d.drop (8 - p) := by
      intro ch
      rw [List.drop_append_eq_append_drop]
      rw [List.drop_eq_nil_of_le (by simp; omega)]
      simp
    rw [htake ' ', htake '0', hdrop ' ', hdrop '0']
    set t := d.take (8 - p) with ht
    have htb : ∀ c ∈ t, c = '0' ∨ c = '1' :=
      fun c hc => hb c (List.take_subset _ _ hc)
    have htne : t ≠ [] := by
      rw [ht]
      cases d with
      | nil => exact absurd rfl hd
      | cons c cs =>
        rw [show (8 : Nat) - p = (8 - p - 1) + 1 from by omega]
        simp [List.take_succ_cons]
    have hlen1 : (List.replicate p ' ' ++ t).length = p + t.length := by simp
    have hlen2 : (List.replicate p '0' ++ t).length = p + t.length := by simp
    rw [hlen1, hlen2]
    set q := 8 - (p + t.length) with hqdef
    have hqb : ∀ c ∈ t ++ List.replicate q '0', c = '0' ∨ c = '1' := by
      intro c hc
      rcases List.mem_append.mp hc with hm | hm
      · exact htb c hm
      · exact Or.inl (List.eq_of_mem_replicate hm)
    have hqne : t ++ List.replicate q '0' ≠ [] := by
      intro hcon
      exact htne (List.append_eq_nil.mp hcon).1
    have hpy1 : pyIntB 2 ((List.replicate p ' ' ++ t) ++ List.replicate q '0') =
        some ((digitsVal 2 (t ++ List.replicate q '0') : Nat) : Int) := by
      rw [List.append_assoc]
      exact pyIntB_spaces_bits p (t ++ List.replicate q '0') hqb hqne
    have hpy2 : pyIntB 2 ((List.replicate p '0' ++ t) ++ List.replicate q '0') =
        some ((digitsVal 2 (t ++ List.replicate q '0') : Nat) : Int) := by
      rw [List.append_assoc]
      have h0 := pyIntB_spaces_bits 0 (List.replicate p '0' ++ (t ++ List.replicate q '0'))
        (by
          intro c hc
          rcases List.mem_append.mp hc with hm | hm
          · exact Or.inl (List.eq_of_mem_replicate hm)
          · exact hqb c hm)
        (by
          intro hcon
          exact hqne (List.append_eq_nil.mp hcon).2)
      simp only [List.replicate_zero, List.nil_append] at h0
      rw [h0, digitsVal_replicate_zero_append]
    rw [hpy1, hpy2]

/-- Rendering of a nonnegative row value: space padding up to the
field width in front of the binary digits. -/
theorem formatB_natCast (w n : Nat) :
    formatB (w : Int) (n : Int) =
      List.replicate (w - (binRender n).length) ' ' ++ binRender n := by
  have hnneg : ¬ ((n : Int) < 0) := by omega
  unfold formatB intBinRender
  rw [if_neg hnneg, Int.natAbs_ofNat, Int.natAbs_ofNat]

/-- C1 counterexample: the rendered row string is not zero-padded and
not always of length `cols`: the zero bitmask in an 8-column font
renders as seven spaces and a single `0` digit rather than eight `0`
characters, and the bitmask 256 renders as nine characters. -/
theorem c1_counterexample :
    formatB (8 : Int) 0 ≠ List.replicate 8 '0' ∧
    formatB (8 : Int) 0 = List.replicate 7 ' ' ++ ['0'] ∧
    (formatB (8 : Int) 256).length ≠ 8 := by
  refine ⟨by decide, rfl, by decide⟩

/-- C1 amended: the packer renders a row's aligned bitmask
right-aligned in a minimum field of `cols` characters padded on the
left with spaces (not zeros), most significant bit first; the length is
exactly `cols` whenever the bitmask is below two to the `cols`; the
digits themselves evaluate back to the bitmask; and the zero bitmask
renders as `cols - 1` spaces followed by a single `0`. -/
theorem c1_amended (cols n : Nat) (h1 : 1 ≤ cols) (h2 : n < 2 ^ cols) :
    formatB (cols : Int) (n : Int) =
      List.replicate (cols - (binRender n).length) ' ' ++ binRender n ∧
    (formatB (cols : Int) (n : Int)).length = cols ∧
    digitsVal 2 (binRender n) = n ∧
    formatB (cols : Int) ((0 : Nat) : Int) = List.replicate (cols - 1) ' ' ++ ['0'] := by
  have hle := binRender_length_le cols n h1 h2
  refine ⟨formatB_natCast cols n, ?_, digitsVal_binRender n, ?_⟩
  · rw [formatB_natCast cols n]
    simp only [List.length_append, List.length_replicate]
    omega
  · rw [formatB_natCast cols 0]
    rfl

/-- C1 witness: the amended rendering facts at a 12-column font and
bitmask 63. -/
theorem c1_witness :
    (1 ≤ 12 ∧ 63 < 2 ^ 12) ∧
    (formatB ((12 : Nat) : Int) ((63 : Nat) : Int) =
       List.replicate (12 - (binRender 63).length) ' ' ++ binRender 63 ∧
     (formatB ((12 : Nat) : Int) ((63 : Nat) : Int)).length = 12 ∧
     digitsVal 2 (binRender 63) = 63 ∧
     formatB ((12 : Nat) : Int) ((0 : Nat) : Int) =
       List.replicate (12 - 1) ' ' ++ ['0']) :=
  ⟨⟨by decide, by decide⟩, c1_amended 12 63 (by decide) (by decide)⟩

/-- C4 counterexample: the round trip does not reproduce the rendered
string itself.  For the zero row in an 8-column font the rendered
string is seven spaces and a `0`; its packed byte 0 unpacks to eight
`0` characters, which differs from the rendered string. -/
theorem c4_counterexample :
    packBytes (formatB (8 : Int) 0) = .ok [0] ∧
    (([0] : List Int).flatMap byteBits).take 8 = "00000000".toList ∧
    formatB (8 : Int) 0 = "       0".toList ∧
    "00000000".toList ≠ "       0".toList := by
  refine ⟨rfl, rfl, rfl, by decide⟩

/-- C4 amended: for a row bitmask below two to the `cols` whose packing
succeeds, concatenating the packed bytes back into a bit string and
dropping the bits beyond `cols` reproduces the zero-padded
`cols`-length binary rendering of the bitmask (the rendered string with
its space padding read as `0` digits), not the space-padded rendered
string itself. -/
theorem c4_amended (cols n : Nat) (h2 : n < 2 ^ cols) (bs : List Int)
    (hok : packBytes (formatB (cols : Int) (n : Int)) = .ok bs) :
    (bs.flatMap byteBits).take cols = bitsFix cols n := by
  by_cases hc0 : cols = 0
  · subst hc0
    simp [bitsFix]
  · have h1 : 1 ≤ cols := by omega
    have hle := binRender_length_le cols n h1 h2
    rw [formatB_natCast cols n] at hok
    set d := binRender n with hd
    set p := cols - d.length with hp
    have hp8 : p < 8 := by
      by_contra hge
      push_neg at hge
      rw [packBytes_allspace p hge d] at hok
      exact Except.noConfusion hok
    rw [packBytes_spaces p hp8 d (binRender_ne_nil n) (binRender_bits n)] at hok
    have hbits : ∀ c ∈ List.replicate p '0' ++ d, c = '0' ∨ c = '1' := by
      intro c hc
      rcases List.mem_append.mp hc with hm | hm
      · exact Or.inl (List.eq_of_mem_replicate hm)
      · exact binRender_bits n c hm
    obtain ⟨bs', hok', hflat⟩ :=
      packBytes_bits (List.replicate p '0' ++ d).length
        (List.replicate p '0' ++ d) (le_refl _) hbits
    rw [hok'] at hok
    injection hok with hbs
    subst hbs
    rw [hflat]
    have hlen : (List.replicate p '0' ++ d).length = cols := by
      simp only [List.length_append, List.length_replicate]
      omega
    rw [List.take_left' hlen]
    have hrt := bitsFix_digitsVal (List.replicate p '0' ++ d) hbits
    rw [hlen, digitsVal_replicate_zero_append, digitsVal_binRender] at hrt
    exact hrt.symm

/-- C4 witness: the round trip at the 12-column font with bitmask 63
(the worked example's row after shifting). -/
theorem c4_witness :
    (63 < 2 ^ 12 ∧
     packBytes (formatB ((12 : Nat) : Int) ((63 : Nat) : Int)) = .ok [3, 240]) ∧
    (([3, 240] : List Int).flatMap byteBits).take 12 = bitsFix 12 63 :=
  ⟨⟨by decide, rfl⟩, c4_amended 12 63 (by decide) [3, 240] rfl⟩

theorem intOfNat_eq_cast (n : Nat) : Int.ofNat n = (n : Int) := rfl

theorem rowIndsOf_full (n : Nat) :
    rowIndsOf (n : Int) 0 (n : Int) = (List.range n).map Int.ofNat := by
  induction n with
  | zero => rfl
  | succ m ih =>
    have h1 : (((m + 1 : Nat) : Int) - 0).toNat = m + 1 := by omega
    have h0 : (((m : Nat) : Int) - 0).toNat = m := by omega
    unfold rowIndsOf intRange
    unfold rowIndsOf intRange at ih
    rw [h1]
    rw [h0] at ih
    conv_lhs => rw [List.range_succ]
    rw [List.map_append, List.reverse_append]
    simp only [List.map_cons, List.map_nil, List.reverse_cons, List.reverse_nil,
      List.nil_append, List.cons_append, List.map_append]
    rw [List.range_succ_eq_map, List.map_cons, List.map_map]
    have hstep1 : ((List.range m).map (fun i => (0 : Int) + Int.ofNat i)).reverse.map
        (fun c => ((m + 1 : Nat) : Int) - 1 - c) =
        (((List.range m).map (fun i => (0 : Int) + Int.ofNat i)).reverse.map
          (fun c => ((m : Nat) : Int) - 1 - c)).map (fun z => z + 1) := by
      rw [List.map_map]
      apply List.map_congr_left
      intro x _
      simp only [Function.comp_apply, intOfNat_eq_cast]
      omega
    have hstep3 : ((List.range m).map Int.ofNat).map (fun z => z + 1) =
        (List.range m).map (Int.ofNat ∘ Nat.succ) := by
      rw [List.map_map]
      apply List.map_congr_left
      intro x _
      simp only [Function.comp_apply, intOfNat_eq_cast]
      omega
    rw [hstep1, ih, hstep3]
    have hhead : ((m + 1 : Nat) : Int) - 1 - (0 + Int.ofNat m) = Int.ofNat 0 := by
      simp only [intOfNat_eq_cast]
      omega
    rw [hhead]

theorem set_append_length (pre : List Int) (a w : Int) (tail : List Int) :
    (pre ++ a :: tail).set pre.length w = pre ++ w :: tail := by
  induction pre with
  | nil => rfl
  | cons x xs ih =>
    simp only [List.cons_append, List.length_cons, List.set_cons_succ, ih]

theorem readRows_fullHeight (cm : Int) :
    ∀ (ls : List Line) (pre : List Int),
      (∀ l ∈ ls, (pyIntB 16 l).isSome) →
      readRows cm ((List.range ls.length).map (fun i => Int.ofNat (pre.length + i)))
          (pre ++ List.replicate ls.length 0) ls =
        .ok (pre ++ ls.map (fun l => pyShiftR ((pyIntB 16 l).getD 0) cm), []) := by
  intro ls
  induction ls with
  | nil =>
    intro pre _
    simp [readRows]
  | cons l ls' ih =>
    intro pre hall
    obtain ⟨v, hv⟩ := Option.isSome_iff_exists.mp (hall l (by simp))
    have hfun : ∀ x ∈ List.range ls'.length,
        ((fun i => Int.ofNat (pre.length + i)) ∘ Nat.succ) x =
          (fun i => Int.ofNat ((pre ++ [pyShiftR v cm]).length + i)) x := by
      intro x _
      simp only [Function.comp_apply, List.length_append, List.length_cons,
        List.length_nil]
      congr 1
      omega
    have hinds : (List.range (l :: ls').length).map (fun i => Int.ofNat (pre.length + i)) =
        Int.ofNat pre.length ::
          (List.range ls'.length).map
            (fun i => Int.ofNat ((pre ++ [pyShiftR v cm]).length + i)) := by
      rw [List.length_cons, List.range_succ_eq_map, List.map_cons, List.map_map]
      rw [List.map_congr_left hfun]
      congr 1
    rw [hinds]
    simp only [readRows]
    rw [hv]
    simp only [Option.getD_some]
    have hsetix : (Int.ofNat pre.length).toNat = pre.length := by simp
    rw [hsetix]
    have hrepl : pre ++ List.replicate (l :: ls').length 0 =
        pre ++ (0 : Int) :: List.replicate ls'.length 0 := by
      simp [List.replicate_succ]
    rw [hrepl, set_append_length]
    have hih := ih (pre ++ [pyShiftR v cm])
      (fun x hx => hall x (by simp [hx]))
    rw [show pre ++ pyShiftR v cm :: List.replicate ls'.length 0 =
        (pre ++ [pyShiftR v cm]) ++ List.replicate ls'.length 0 from by simp]
    rw [hih]
    simp [hv]

/-- Bytes contributed by one row in the per-glyph output (the row's
rendered string packed), empty when packing fails. -/
def rowBytesOf (cols r : Int) : List Int :=
  match packBytes (formatB cols r) with
  | .ok bs => bs
  | .error _ => []

theorem renderRows_bytes (cols : Int) :
    ∀ (bm : List Int),
      (∀ r ∈ bm, ∃ bs, packBytes (formatB cols r) = .ok bs) →
      renderRows cols bm =
        (bm.map (fun r => OutLine.rowComment (rowArt (formatB cols r))),
         .ok (bm.flatMap (fun r => rowBytesOf cols r))) := by
  intro bm
  induction bm with
  | nil => intro _; rfl
  | cons r rs ih =>
    intro h
    obtain ⟨bs, hok⟩ := h r (by simp)
    have hrw : rowBytesOf cols r = bs := by unfold rowBytesOf; rw [hok]
    simp only [renderRows]
    rw [hok, ih (fun x hx => h x (by simp [hx]))]
    simp [hrw]

/-- C3 counterexample: in a two-row font, a full-height glyph's first
bitmap line (the glyph's topmost row, here `FF`) is stored at array
index 0, so array index `rows - 1 = 1` holds the bottom row value 0,
not the topmost row, refuting the claimed indexing. -/
theorem c3_counterexample :
    rowIndsOf 2 0 2 = [0, 1] ∧
    readRows 0 (rowIndsOf 2 0 2) (List.replicate 2 0) (mkIn ["FF", "00"]) =
      .ok ([255, 0], []) ∧
    ([255, 0] : List Int).get? 1 = some 0 ∧ ((0 : Int) ≠ 255) := by
  exact ⟨rfl, rfl, rfl, by decide⟩

/-- C3 amended: for a full-height glyph, the stored row sequence keeps
the bitmap lines in reading order, so array index 0 (the index
`rows - 1 - c` for the top bottom-up row index `c = rows - 1`) holds
the font's topmost row; and the packed byte sequence concatenates the
stored rows by iterating the storage index from 0 up to `rows - 1`,
which is still top-to-bottom order. -/
theorem c3_amended :
    (∀ (cm : Int) (ls : List Line),
       (∀ l ∈ ls, (pyIntB 16 l).isSome) →
       readRows cm (rowIndsOf ((ls.length : Nat) : Int) 0 ((ls.length : Nat) : Int))
           (List.replicate ls.length 0) ls =
         .ok (ls.map (fun l => pyShiftR ((pyIntB 16 l).getD 0) cm), [])) ∧
    (∀ (cols : Int) (bm : List Int),
       (∀ r ∈ bm, ∃ bs, packBytes (formatB cols r) = .ok bs) →
       renderRows cols bm =
         (bm.map (fun r => OutLine.rowComment (rowArt (formatB cols r))),
          .ok (bm.flatMap (fun r => rowBytesOf cols r)))) := by
  constructor
  · intro cm ls hall
    have h := readRows_fullHeight cm ls [] hall
    simp only [List.length_nil, List.nil_append, Nat.zero_add] at h
    rw [rowIndsOf_full]
    exact h
  · exact renderRows_bytes

/-- C3 witness: the two-line bitmap `FF`, `00` in a two-row font is
stored top-first as `[255, 0]`, and its rows render and pack in storage
order 0 then 1. -/
theorem c3_witness :
    readRows 0 (rowIndsOf (((mkIn ["FF", "00"]).length : Nat) : Int) 0
        (((mkIn ["FF", "00"]).length : Nat) : Int))
      (List.replicate (mkIn ["FF", "00"]).length 0) (mkIn ["FF", "00"]) =
      .ok ([255, 0], []) ∧
    renderRows 8 [255, 0] =
      ([.rowComment ("########".toList), .rowComment ("........".toList)],
       .ok [255, 0]) := by
  constructor
  · exact c3_amended.1 0 (mkIn ["FF", "00"]) (by decide)
  · have h := c3_amended.2 8 [255, 0] (by
      intro r hr
      rcases List.mem_cons.mp hr with rfl | hr2
      · exact ⟨[255], rfl⟩
      · rcases List.mem_cons.mp hr2 with rfl | hr3
        · exact ⟨[0], rfl⟩
        · exact absurd hr3 (List.not_mem_nil r))
    exact h

/-- Fatal errors that can be raised while reading one glyph's record
group (FSM states 2 through 7): all errors of the glyph cycle except
the packing failures of the output phase (base-2 literal errors). -/
def glyphRecordErr : Err → Bool
  | .noEncoding _ => true
  | .wrongCodepoint _ _ => true
  | .noBBX _ => true
  | .valueError b _ => decide (b = 10 ∨ b = 16)
  | .uncontainedBBX _ => true
  | .noBitmap _ => true
  | .noEndchar _ => true
  | .stopIteration => true
  | _ => false

/-- Record-group errors that are unambiguous at whole-run level (the
base-10 literal error can also arise at the font bounding box of state
1, before any glyph, so it is excluded here). -/
def glyphRecordErrRun : Err → Bool
  | .noEncoding _ => true
  | .wrongCodepoint _ _ => true
  | .noBBX _ => true
  | .valueError b _ => decide (b = 16)
  | .uncontainedBBX _ => true
  | .noBitmap _ => true
  | .noEndchar _ => true
  | .stopIteration => true
  | _ => false

/-- A complete per-glyph output block: the full output of a successful
`renderGlyph`. -/
def CompleteBlock (b : List OutLine) : Prop :=
  ∃ fn curr cols bitmap, renderGlyph fn curr cols bitmap = (b, Except.ok ())

/-- An output line that is the font-level header write. -/
def IsHeaderLine (o : OutLine) : Prop :=
  ∃ name gb c r v sc sr, o = OutLine.header name gb c r v sc sr

theorem packBytes_error_shape : ∀ (n : Nat) (s : List Char) (e : Err), s.length ≤ n →
    packBytes s = .error e → ∃ lit, e = .valueError 2 lit := by
  intro n
  induction n with
  | zero =>
    intro s e hl herr
    have hnil : s = [] := List.eq_nil_of_length_eq_zero (Nat.le_zero.mp hl)
    subst hnil
    exact absurd herr (by simp [packBytes])
  | succ m ih =>
    intro s e hl herr
    cases s with
    | nil => exact absurd herr (by simp [packBytes])
    | cons c cs =>
      rw [packBytes_cons] at herr
      dsimp only at herr
      split at herr
      · next hpy =>
        injection herr with h
        exact ⟨_, h.symm⟩
      · next b hpy =>
        split at herr
        · next e' hrec =>
          injection herr with h
          subst h
          refine ih ((c :: cs).drop 8) _ ?_ hrec
          simp only [List.length_drop, List.length_cons]
          simp only [List.length_cons] at hl
          omega
        · next bs hrec => exact absurd herr (by simp)

theorem renderRows_error_shape (cols : Int) :
    ∀ (bm : List Int) (outs : List OutLine) (e : Err),
      renderRows cols bm = (outs, .error e) → ∃ lit, e = .valueError 2 lit := by
  intro bm
  induction bm with
  | nil =>
    intro outs e h
    injection h with h1 h2
    exact absurd h2 (by simp)
  | cons r rs ih =>
    intro outs e h
    simp only [renderRows] at h
    split at h
    · next e' hpk =>
      injection h with h1 h2
      injection h2 with h3
      subst h3
      exact packBytes_error_shape (formatB cols r).length _ _ (le_refl _) hpk
    · next bs hpk =>
      split at h
      · next outs' e' hrec =>
        injection h with h1 h2
        injection h2 with h3
        subst h3
        exact ih outs' e' hrec
      · next outs' rest hrec =>
        injection h with h1 h2
        exact absurd h2 (by simp)

theorem renderGlyph_error_shape (fn curr : Line) (cols : Int) (bm : List Int)
    (out : List OutLine) (e : Err) (h : renderGlyph fn curr cols bm = (out, .error e)) :
    ∃ lit, e = .valueError 2 lit := by
  unfold renderGlyph at h
  split at h
  · next outs e' hrr =>
    injection h with h1 h2
    injection h2 with h3
    subst h3
    exact renderRows_error_shape cols bm outs e' hrr
  · next outs bytes hrr =>
    injection h with h1 h2
    exact absurd h2 (by simp)

theorem headerStep_error (n : Line) (c r v : Int) (e : Err)
    (h : headerStep n c r v = .error e) : e = .zeroDivisionError := by
  unfold headerStep at h
  split at h
  · injection h with h1
    exact h1.symm
  · split at h
    · injection h with h1
      exact h1.symm
    · exact absurd h (by simp)

theorem headerStep_ok (n : Line) (c r v : Int) (o : OutLine)
    (h : headerStep n c r v = .ok o) : IsHeaderLine o := by
  unfold headerStep at h
  split at h
  · exact absurd h (by simp)
  split at h
  · exact absurd h (by simp)
  · injection h with h1
    exact ⟨_, _, _, _, _, _, _, h1.symm⟩

theorem glyphLoop_record_atomic :
    ∀ (n : Nat) (ls : List Line) (fn : Line) (cols rows blc blr : Int) (e : Nat)
      (out : List OutLine) (cps : List Nat) (err : Err),
      ls.length ≤ n →
      glyphLoop fn cols rows blc blr e ls = ⟨out, cps, .error err⟩ →
      glyphRecordErr err = true →
      ∃ blocks : List (List OutLine),
        out = blocks.flatten ∧ ∀ b ∈ blocks, CompleteBlock b := by
  intro n
  induction n with
  | zero =>
    intro ls fn cols rows blc blr e out cps err hl h hrec
    have hnil : ls = [] := List.eq_nil_of_length_eq_zero (Nat.le_zero.mp hl)
    subst hnil
    unfold glyphLoop at h
    injection h with h1 h2 h3
    exact absurd h3 (by simp)
  | succ m ih =>
    intro ls fn cols rows blc blr e out cps err hl h hrec
    unfold glyphLoop at h
    split at h
    · injection h with h1 h2 h3
      exact absurd h3 (by simp)
    · next curr ls1 h2 =>
      split at h
      · injection h with ha hb hc
        exact ⟨[], ha.symm, by simp⟩
      · next ls2 h3 =>
        split at h
        · injection h with ha hb hc
          exact ⟨[], ha.symm, by simp⟩
        · next colMin rowInds ls3 h4 =>
          split at h
          · injection h with ha hb hc
            exact ⟨[], ha.symm, by simp⟩
          · next u ls4 h5 =>
            split at h
            · injection h with ha hb hc
              exact ⟨[], ha.symm, by simp⟩
            · next bitmap ls5 h6 =>
              split at h
              · injection h with ha hb hc
                exact ⟨[], ha.symm, by simp⟩
              · next ls5v hOld fl ls6 =>
                by_cases h7 : rstripL fl ≠ "ENDCHAR".toList
                · rw [if_pos h7] at h
                  injection h with ha hb hc
                  exact ⟨[], ha.symm, by simp⟩
                · rw [if_neg h7] at h
                  split at h
                  · next gOut e' hR =>
                    injection h with ha hb hc
                    injection hc with hce
                    subst hce
                    obtain ⟨lit, hlit⟩ := renderGlyph_error_shape _ _ _ _ _ _ hR
                    subst hlit
                    simp [glyphRecordErr] at hrec
                  · next gOut a hR =>
                    dsimp only at h
                    injection h with ha hb hc
                    have hloop : glyphLoop fn cols rows blc blr (e + 1) ls6 =
                        ⟨(glyphLoop fn cols rows blc blr (e + 1) ls6).out,
                         (glyphLoop fn cols rows blc blr (e + 1) ls6).codepoints,
                         .error err⟩ := by
                      rw [← hc]
                    have hlen : ls6.length ≤ m := by
                      have l1 := scanFor_some_length _ _ _ _ h2
                      have l2 := encodingStep_ok_length _ _ _ _ h3
                      have l3 := bbxStep_ok_length _ _ _ _ _ _ _ _ h4
                      have l4 := scanFor_some_length _ _ _ _ h5
                      have l5 := readRows_ok_length _ _ _ _ _ _ h6
                      simp only [List.length_cons] at l5
                      omega
                    obtain ⟨blocks', hfl, hcb⟩ :=
                      ih ls6 fn cols rows blc blr (e + 1) _ _ err hlen hloop hrec
                    refine ⟨gOut :: blocks', ?_, ?_⟩
                    · rw [← ha, List.flatten_cons, hfl]
                    · intro b hb2
                      rcases List.mem_cons.mp hb2 with rfl | hm
                      · cases a
                        exact ⟨fn, curr, cols, bitmap, hR⟩
                      · exact hcb b hm

/-- Input with one complete glyph followed by a glyph whose ENCODING
value violates the expected sequence. -/
def bdfC10 : List Line :=
  mkIn ["FONT -a-b-c", "FONTBOUNDINGBOX 8 1 0 0", "STARTCHAR A", "ENCODING 0",
        "BBX 8 1 0 0", "BITMAP", "FF", "ENDCHAR", "STARTCHAR B", "ENCODING 5"]

/-- C10: per-glyph output is atomic.  Nothing is written for a glyph
until its whole record group through ENDCHAR has been read and
validated, so when the glyph cycle stops with a record-reading error
its output consists exactly of complete renderings of previously
finished glyphs; at whole-run level, such an error leaves the font
header followed by complete glyph blocks only, never a partial
glyph. -/
theorem c10_confirmed :
    (∀ (fn : Line) (cols rows blc blr : Int) (e : Nat) (ls : List Line)
       (out : List OutLine) (cps : List Nat) (err : Err),
       glyphLoop fn cols rows blc blr e ls = ⟨out, cps, .error err⟩ →
       glyphRecordErr err = true →
       ∃ blocks : List (List OutLine),
         out = blocks.flatten ∧ ∀ b ∈ blocks, CompleteBlock b) ∧
    (∀ (vpad : Int) (lines : List Line) (out : List OutLine) (cps : List Nat) (err : Err),
       runConv vpad lines = ⟨out, cps, .error err⟩ →
       glyphRecordErrRun err = true →
       ∃ (hd : OutLine) (blocks : List (List OutLine)),
         out = hd :: blocks.flatten ∧ IsHeaderLine hd ∧
           ∀ b ∈ blocks, CompleteBlock b) := by
  have hrunsub : ∀ err, glyphRecordErrRun err = true → glyphRecordErr err = true := by
    intro err h
    cases err <;> simp_all [glyphRecordErr, glyphRecordErrRun]
  constructor
  · intro fn cols rows blc blr e ls out cps err h hrec
    exact glyphLoop_record_atomic ls.length ls fn cols rows blc blr e out cps err
      (le_refl _) h hrec
  · intro vpad lines out cps err h hrec
    unfold runConv at h
    split at h
    · injection h with h1 h2 h3
      injection h3 with h4
      subst h4
      simp [glyphRecordErrRun] at hrec
    split at h
    · injection h with h1 h2 h3
      injection h3 with h4
      subst h4
      simp [glyphRecordErrRun] at hrec
    · next m0 ls0 hm =>
      split at h
      · injection h with h1 h2 h3
        injection h3 with h4
        subst h4
        simp [glyphRecordErrRun] at hrec
      · next fname hf =>
        split at h
        · injection h with h1 h2 h3
          injection h3 with h4
          subst h4
          simp [glyphRecordErrRun] at hrec
        · next t1 t2 t3 t4 ls1 hfbb =>
          split at h
          · injection h with h1 h2 h3
            injection h3 with h4
            subst h4
            simp [glyphRecordErrRun] at hrec
          · next cols hc =>
            split at h
            · injection h with h1 h2 h3
              injection h3 with h4
              subst h4
              simp [glyphRecordErrRun] at hrec
            · next rows hr =>
              split at h
              · injection h with h1 h2 h3
                injection h3 with h4
                subst h4
                simp [glyphRecordErrRun] at hrec
              · next blCol hbc =>
                split at h
                · injection h with h1 h2 h3
                  injection h3 with h4
                  subst h4
                  simp [glyphRecordErrRun] at hrec
                · next blRow hbr =>
                  split at h
                  · next e' hhs =>
                    injection h with h1 h2 h3
                    injection h3 with h4
                    subst h4
                    rw [headerStep_error _ _ _ _ _ hhs] at hrec
                    simp [glyphRecordErrRun] at hrec
                  · next hdr hhs =>
                    dsimp only at h
                    injection h with h1 h2 h3
                    have hloop : glyphLoop fname cols rows blCol blRow 0 ls1 =
                        ⟨(glyphLoop fname cols rows blCol blRow 0 ls1).out,
                         (glyphLoop fname cols rows blCol blRow 0 ls1).codepoints,
                         .error err⟩ := by
                      rw [← h3]
                    obtain ⟨blocks, hfl, hcb⟩ :=
                      glyphLoop_record_atomic ls1.length ls1 fname cols rows blCol blRow 0
                        _ _ err (le_refl _) hloop (hrunsub err hrec)
                    refine ⟨hdr, blocks, ?_, headerStep_ok _ _ _ _ _ hhs, hcb⟩
                    rw [← h1, hfl]

/-- C10 witness: with a complete first glyph and a sequence-violating
second glyph, the run's output is the header plus exactly one complete
glyph block. -/
theorem c10_witness :
    ∃ (hd : OutLine) (blocks : List (List OutLine)),
      [OutLine.header ("B".toList) 1 8 1 1 90 182, OutLine.glyphName ("BA".toList),
       OutLine.rowComment ("########".toList), OutLine.dcb [255], OutLine.blank] =
        hd :: blocks.flatten ∧
      IsHeaderLine hd ∧ ∀ b ∈ blocks, CompleteBlock b :=
  c10_confirmed.2 1 bdfC10
    [OutLine.header ("B".toList) 1 8 1 1 90 182, OutLine.glyphName ("BA".toList),
     OutLine.rowComment ("########".toList), OutLine.dcb [255], OutLine.blank]
    [0] (.wrongCodepoint 1 ("5".toList))
    (by unfold runConv glyphLoop glyphLoop; rfl)
    (by decide)
